import Mathlib

set_option maxRecDepth 4000

/-!
Shallow embedding of the identifier registry of src/src/core.ts
(createIdContext and the operations it returns), together with proofs of
the documented properties. JS strings are modelled as lists of characters,
JS numbers as rationals (every length appearing in the repository is
exactly representable), and JS undefined as Option.none.
-/

/-- A JS string, as its list of characters. -/
abbrev JStr := List Char

/-- Characters of a Lean string literal; used to write concrete inputs. -/
def cl (s : String) : JStr := s.data

/-- A type definition (src/src/types.ts, TypeSpec): either a bare prefix
string or a structured spec carrying an explicit length. -/
inductive TypeSpec where
  | bare : JStr → TypeSpec
  | full : JStr → ℚ → TypeSpec
deriving DecidableEq

/-- Global configuration (src/src/types.ts, IdConfig): the injected
generator and the default length. A generator call returning a non-string
value is modelled as none. -/
structure IdConfig where
  generateUniqueId : ℚ → Option JStr
  defaultLength : ℚ

/-- The failures the module can raise; each constructor carries the data
its message reports. -/
inductive IdError where
  | emptyDefinitions : IdError
  | invalidPfx : String → IdError
  | invalidLength : String → IdError
  | duplicatePfx : JStr → IdError
  | unknownType : String → IdError
  | generatorReturnedNonString : IdError
  | generatorReturnedWrongLength : ℕ → ℚ → IdError
  | generatorReturnedInvalidCharacters : IdError
deriving DecidableEq

/-- The value the construction pass accumulates and the returned context
closes over (src/src/core.ts lines 29-65): the three lookup tables and the
running minimum and maximum length. none models the initial Infinity of
the minimum. Field names shorten the source's prefix to pfx. -/
structure IdContext where
  typeToPfx : List (String × JStr)
  typeToLength : List (String × ℚ)
  pfxToType : List (JStr × String)
  minLength : Option ℚ
  maxLength : ℚ
deriving DecidableEq

instance {ε α : Type} [DecidableEq ε] [DecidableEq α] : DecidableEq (Except ε α) := fun x y =>
  match x, y with
  | .ok a, .ok b => if h : a = b then .isTrue (by rw [h]) else .isFalse (by simp [h])
  | .ok _, .error _ => .isFalse (by simp)
  | .error _, .ok _ => .isFalse (by simp)
  | .error e, .error f => if h : e = f then .isTrue (by rw [h]) else .isFalse (by simp [h])

/-- Reading a property of a JS record, modelled as an association list. A
record never holds two bindings of one key, so the first binding wins. -/
def alookup {κ ν : Type} [DecidableEq κ] : List (κ × ν) → κ → Option ν
  | [], _ => none
  | (k, v) :: rest, key => if k = key then some v else alookup rest key

/-- Property assignment on a JS record: overwrite in place, or append. -/
def aset {κ ν : Type} [DecidableEq κ] : List (κ × ν) → κ → ν → List (κ × ν)
  | [], key, v => [(key, v)]
  | (k, w) :: rest, key, v =>
    if k = key then (key, v) :: rest else (k, w) :: aset rest key v

/-- JS truthiness of a looked-up type name: undefined and the empty string
are falsy. The duplicate-prefix check of the source tests the stored name
this way. -/
def truthyName : Option String → Bool
  | none => false
  | some t => t != ""

/-- Resolve a definition to its prefix and length; bare strings take the
configured default length (src/src/core.ts line 32). -/
def resolveSpec (cfg : IdConfig) : TypeSpec → JStr × ℚ
  | .bare p => (p, cfg.defaultLength)
  | .full p len => (p, len)

/-- The resolved prefix of a definition. -/
def rP (cfg : IdConfig) (s : TypeSpec) : JStr := (resolveSpec cfg s).1

/-- The resolved length of a definition. -/
def rL (cfg : IdConfig) (s : TypeSpec) : ℚ := (resolveSpec cfg s).2

/-- Math.min against the running minimum, where none models Infinity. -/
def minInf (m : Option ℚ) (x : ℚ) : Option ℚ :=
  match m with
  | none => some x
  | some y => some (if y ≤ x then y else x)

/-- Math.max on the modelled numbers. -/
def qmax (y x : ℚ) : ℚ := if y ≤ x then x else y

/-- One step of the construction reduce (src/src/core.ts lines 30-57):
resolve, validate the prefix, validate the length, check prefix
uniqueness, then record. The typeof guards of the source always pass here
because the embedding is typed; the length check of the source is only
length <= 0 and does not test integrality. -/
def buildStep (cfg : IdConfig) (acc : IdContext) (e : String × TypeSpec) :
    Except IdError IdContext :=
  let p := rP cfg e.2
  let len := rL cfg e.2
  if p = [] ∨ '_' ∈ p then .error (.invalidPfx e.1)
  else if len ≤ 0 then .error (.invalidLength e.1)
  else if truthyName (alookup acc.pfxToType p) then .error (.duplicatePfx p)
  else .ok ⟨aset acc.typeToPfx e.1 p, aset acc.typeToLength e.1 len,
    aset acc.pfxToType p e.1, minInf acc.minLength len, qmax acc.maxLength len⟩

/-- The construction reduce over all entries in order, threading the
accumulator and propagating the first failure. -/
def buildAll (cfg : IdConfig) :
    List (String × TypeSpec) → IdContext → Except IdError IdContext
  | [], acc => .ok acc
  | e :: rest, acc =>
    match buildStep cfg acc e with
    | .error err => .error err
    | .ok next => buildAll cfg rest next

/-- The initial accumulator: empty tables, minLength Infinity, maxLength 0. -/
def initAcc : IdContext := ⟨[], [], [], none, 0⟩

/-- createIdContext (src/src/core.ts lines 17-65): reject an empty
definition mapping before any per-type validation, then run the
construction pass. Definitions are an ordered list of key and spec pairs,
mirroring JS object insertion order. -/
def createIdContext (defs : List (String × TypeSpec)) (cfg : IdConfig) :
    Except IdError IdContext :=
  if defs = [] then .error .emptyDefinitions else buildAll cfg defs initAcc

/-- The character class a-zA-Z0-9 of the source's regular expressions. -/
def isAsciiAlnum (c : Char) : Bool :=
  ('a' ≤ c && c ≤ 'z') || ('A' ≤ c && c ≤ 'Z') || ('0' ≤ c && c ≤ '9')

/-- The anchored test requiring one or more alphanumeric characters. -/
def testAlnum (u : JStr) : Bool := !u.isEmpty && u.all isAsciiAlnum

/-- create (src/src/core.ts lines 71-99): look up prefix and length, call
the injected generator, validate its untrusted output, and assemble the
identifier. The missing-length branch is unreachable for any context made
by createIdContext, whose two type tables always receive their entries
together. -/
def create (ctx : IdContext) (cfg : IdConfig) (t : String) :
    Except IdError JStr :=
  match alookup ctx.typeToPfx t with
  | none => .error (.unknownType t)
  | some p =>
    if p = [] then .error (.unknownType t)
    else
      match alookup ctx.typeToLength t with
      | none => .error (.unknownType t)
      | some len =>
        match cfg.generateUniqueId len with
        | none => .error .generatorReturnedNonString
        | some u =>
          if (u.length : ℚ) ≠ len then
            .error (.generatorReturnedWrongLength u.length len)
          else if !testAlnum u then .error .generatorReturnedInvalidCharacters
          else .ok (p ++ '_' :: u)

/-- JS String.split on a one-character separator: the list of segments, in
order, keeping empty segments. The result is never empty. -/
def jsplit (sep : Char) : JStr → List JStr
  | [] => [[]]
  | c :: cs =>
    match jsplit sep cs with
    | [] => []
    | seg :: rest => if c = sep then [] :: seg :: rest else (c :: seg) :: rest

/-- getType (src/src/core.ts lines 101-108): undefined and the empty
string (both falsy) map to undefined; otherwise the segment before the
first separator is looked up in the prefix index. -/
def getType (ctx : IdContext) (id : Option JStr) : Option String :=
  match id with
  | none => none
  | some s =>
    if s = [] then none
    else alookup ctx.pfxToType ((jsplit '_' s).headD [])

/-- getPrefix (src/src/core.ts lines 110-117). -/
def getPfx (ctx : IdContext) (t : String) : Except IdError JStr :=
  match alookup ctx.typeToPfx t with
  | none => .error (.unknownType t)
  | some p => .ok p

/-- isValid (src/src/core.ts lines 119-138). The destructuring of the
split keeps only the first two segments, so the part checked for length
and character set is the segment between the first and second separators;
a missing expected length makes the JS length comparison fail, hence
false. -/
def isValid (ctx : IdContext) (id : Option JStr) : Bool :=
  match id with
  | none => false
  | some s =>
    if '_' ∈ s then
      match alookup ctx.pfxToType ((jsplit '_' s).headD []) with
      | none => false
      | some t =>
        match alookup ctx.typeToLength t with
        | none => false
        | some len =>
          if ((((jsplit '_' s).drop 1).headD []).length : ℚ) ≠ len then false
          else testAlnum (((jsplit '_' s).drop 1).headD [])
    else false

/-- isType (src/src/core.ts lines 140-143). -/
def isType (ctx : IdContext) (t : String) (id : JStr) : Bool :=
  getType ctx (some id) == some t

/-- Word characters for the word-boundary assertion of the pattern. -/
def isWordChar (c : Char) : Bool := isAsciiAlnum c || c = '_'

/-- Whether the character at a position exists and is a word character. -/
def wordAt (s : JStr) (i : ℕ) : Bool :=
  match s.get? i with
  | some c => isWordChar c
  | none => false

/-- Word boundary between positions i - 1 and i. -/
def boundaryAt (s : JStr) (i : ℕ) : Bool :=
  (if i = 0 then false else wordAt s (i - 1)) != wordAt s i

/-- Literal match of the characters of p at position i. -/
def litAt (s : JStr) (i : ℕ) (p : JStr) : Bool := (s.drop i).take p.length == p

/-- Length of the maximal alphanumeric run starting at position j. -/
def alnumRun (s : JStr) (j : ℕ) : ℕ := ((s.drop j).takeWhile isAsciiAlnum).length

/-- The length quantifier of the extraction pattern (src/src/core.ts lines
67-69): exactly minLength when all lengths agree, else the interval from
minLength to maxLength. The interpolated pattern is only well formed when
the registered lengths are integers; the bounds are compared over the
rationals. -/
def lenOK (ctx : IdContext) (k : ℕ) : Bool :=
  match ctx.minLength with
  | none => false
  | some lo =>
    if lo = ctx.maxLength then decide ((k : ℚ) = lo)
    else decide (lo ≤ (k : ℚ)) && decide ((k : ℚ) ≤ ctx.maxLength)

/-- Greedy match of the quantified alphanumeric run followed by a word
boundary, starting at position j: the engine consumes as many characters
as allowed and backtracks downwards, so the longest admissible count wins.
Returns the end position of the whole match. -/
def greedyEnd (ctx : IdContext) (s : JStr) (j : ℕ) : Option ℕ :=
  ((List.range (alnumRun s j + 1)).reverse.find?
    fun k => lenOK ctx k && boundaryAt s (j + k)).map (fun k => j + k)

/-- Attempt the extraction pattern at position i: word boundary, one
alternative per registered prefix in insertion order, the separator, then
the quantified run and the closing boundary. Returns the end position. -/
def tryToken (ctx : IdContext) (s : JStr) (i : ℕ) : Option ℕ :=
  if boundaryAt s i then
    (ctx.pfxToType.map Prod.fst).findSome? fun p =>
      if litAt s i p && ((s.drop (i + p.length)).head? == some '_') then
        greedyEnd ctx s (i + p.length + 1)
      else none
  else none

/-- The global scan of String.match: find the leftmost match starting at
or after the current position, record its text, continue at its end
(advancing at least one position, as the engine does on an empty match).
Fuel bounds the recursion; length + 1 steps always suffice. -/
def scanFrom (ctx : IdContext) (s : JStr) : ℕ → ℕ → List JStr
  | 0, _ => []
  | fuel + 1, i =>
    if s.length ≤ i then []
    else
      match tryToken ctx s i with
      | some e => (s.drop i).take (e - i) :: scanFrom ctx s fuel (max e (i + 1))
      | none => scanFrom ctx s fuel (i + 1)

/-- findAll (src/src/core.ts line 145): every pattern match in textual
order, post-filtered through the strict validator. -/
def findAll (ctx : IdContext) (s : JStr) : List JStr :=
  (scanFrom ctx s (s.length + 1) 0).filter fun m => isValid ctx (some m)

/-- Whether a construction result is a success. -/
def isOkE {ε α : Type} : Except ε α → Bool
  | .ok _ => true
  | .error _ => false

/-- A single resolved definition is valid: nonempty prefix free of the
separator, and positive length. -/
abbrev entryOK (cfg : IdConfig) (e : String × TypeSpec) : Prop :=
  rP cfg e.2 ≠ [] ∧ '_' ∉ rP cfg e.2 ∧ 0 < rL cfg e.2

/-- Valid definitions: nonempty, every entry valid, type names pairwise
distinct (they are JS object keys) and resolved prefixes pairwise
distinct. -/
abbrev ValidDefs (cfg : IdConfig) (defs : List (String × TypeSpec)) : Prop :=
  defs ≠ [] ∧ (∀ e ∈ defs, entryOK cfg e) ∧
    (defs.map Prod.fst).Nodup ∧ (defs.map fun e => rP cfg e.2).Nodup

theorem jsplit_cons (sep c : Char) (t : JStr) :
    jsplit sep (c :: t) =
      match jsplit sep t with
      | [] => []
      | seg :: rest =>
        if c = sep then [] :: seg :: rest else (c :: seg) :: rest := rfl

theorem jsplit_ne_nil (sep : Char) (s : JStr) : jsplit sep s ≠ [] := by
  induction s with
  | nil => simp [jsplit]
  | cons c cs ih =>
    cases h : jsplit sep cs with
    | nil => exact absurd h ih
    | cons seg rest =>
      rw [jsplit_cons, h]
      by_cases hc : c = sep <;> simp [hc]

theorem jsplit_no_sep (sep : Char) (u : JStr) (h : sep ∉ u) :
    jsplit sep u = [u] := by
  induction u with
  | nil => simp [jsplit]
  | cons c cs ih =>
    have hc : c ≠ sep := fun hc => h (hc ▸ List.mem_cons_self c cs)
    have hcs : sep ∉ cs := fun hm => h (List.mem_cons_of_mem c hm)
    rw [jsplit_cons, ih hcs]
    simp [hc]

theorem jsplit_append (sep : Char) (p u : JStr) (h : sep ∉ p) :
    jsplit sep (p ++ sep :: u) = p :: jsplit sep u := by
  induction p with
  | nil =>
    rw [List.nil_append, jsplit_cons]
    cases hu : jsplit sep u with
    | nil => exact absurd hu (jsplit_ne_nil sep u)
    | cons seg rest => simp [hu]
  | cons c cs ih =>
    have hc : c ≠ sep := fun hc => h (hc ▸ List.mem_cons_self c cs)
    have hcs : sep ∉ cs := fun hm => h (List.mem_cons_of_mem c hm)
    rw [List.cons_append, jsplit_cons, ih hcs]
    simp [hc]

theorem alookup_cons {κ ν : Type} [DecidableEq κ] (k : κ) (v : ν) (l : List (κ × ν)) (key : κ) :
    alookup ((k, v) :: l) key = if k = key then some v else alookup l key := rfl

theorem alookup_append_of_none {κ ν : Type} [DecidableEq κ] (l m : List (κ × ν)) (key : κ)
    (h : alookup l key = none) : alookup (l ++ m) key = alookup m key := by
  induction l with
  | nil => simp
  | cons e rest ih =>
    obtain ⟨k, v⟩ := e
    rw [alookup_cons] at h
    by_cases hk : k = key
    · simp [hk] at h
    · rw [List.cons_append, alookup_cons, if_neg hk]
      exact ih (by rwa [if_neg hk] at h)

theorem aset_of_none {κ ν : Type} [DecidableEq κ] (l : List (κ × ν)) (key : κ) (v : ν)
    (h : alookup l key = none) : aset l key v = l ++ [(key, v)] := by
  induction l with
  | nil => simp [aset]
  | cons e rest ih =>
    obtain ⟨k, w⟩ := e
    rw [alookup_cons] at h
    by_cases hk : k = key
    · simp [hk] at h
    · simp only [aset, if_neg hk, List.cons_append]
      rw [ih (by rwa [if_neg hk] at h)]

theorem alookup_aset_self {κ ν : Type} [DecidableEq κ] (l : List (κ × ν)) (key : κ) (v : ν) :
    alookup (aset l key v) key = some v := by
  induction l with
  | nil => simp [aset, alookup]
  | cons e rest ih =>
    obtain ⟨k, w⟩ := e
    by_cases hk : k = key
    · simp [aset, hk, alookup]
    · simp only [aset, if_neg hk]
      rw [alookup_cons, if_neg hk]
      exact ih

theorem alookup_aset_ne {κ ν : Type} [DecidableEq κ] (l : List (κ × ν)) (key k2 : κ) (v : ν)
    (h : k2 ≠ key) : alookup (aset l key v) k2 = alookup l k2 := by
  have hne : key ≠ k2 := fun hk => h hk.symm
  induction l with
  | nil =>
    show alookup [(key, v)] k2 = alookup [] k2
    rw [alookup_cons, if_neg hne]
  | cons e rest ih =>
    obtain ⟨k, w⟩ := e
    by_cases hk : k = key
    · have hs : aset ((k, w) :: rest) key v = (key, v) :: rest := by simp [aset, hk]
      rw [hs, alookup_cons, alookup_cons, if_neg hne, hk, if_neg hne]
    · have hs : aset ((k, w) :: rest) key v = (k, w) :: aset rest key v := by
        simp [aset, hk]
      rw [hs, alookup_cons, alookup_cons]
      by_cases hkk : k = k2
      · simp [hkk]
      · rw [if_neg hkk, if_neg hkk, ih]

theorem mem_aset {κ ν : Type} [DecidableEq κ] (l : List (κ × ν)) (key : κ) (v : ν)
    (pr : κ × ν) (h : pr ∈ aset l key v) : pr ∈ l ∨ pr = (key, v) := by
  induction l with
  | nil => simp [aset] at h; simp [h]
  | cons e rest ih =>
    obtain ⟨k, w⟩ := e
    by_cases hk : k = key
    · simp only [aset, if_pos hk] at h
      rcases List.mem_cons.mp h with h1 | h1
      · right; exact h1
      · left; exact List.mem_cons_of_mem _ h1
    · simp only [aset, if_neg hk] at h
      rcases List.mem_cons.mp h with h1 | h1
      · left; exact h1 ▸ List.mem_cons_self _ _
      · rcases ih h1 with h2 | h2
        · left; exact List.mem_cons_of_mem _ h2
        · right; exact h2

theorem alookup_map_key {α β κ ν : Type} [DecidableEq κ]
    (key : α × β → κ) (val : α × β → ν) (l : List (α × β)) (e0 : α × β)
    (he : e0 ∈ l) (hnd : (l.map key).Nodup) :
    alookup (l.map fun e => (key e, val e)) (key e0) = some (val e0) := by
  induction l with
  | nil => simp at he
  | cons e rest ih =>
    rw [List.map_cons, alookup_cons]
    rcases List.mem_cons.mp he with h1 | h1
    · rw [if_pos (by rw [h1])]
      rw [h1]
    · have hne : key e ≠ key e0 := by
        intro hk
        have : key e0 ∈ rest.map key := List.mem_map_of_mem key h1
        rw [← hk] at this
        exact (List.nodup_cons.mp (by simpa using hnd)).1 this
      rw [if_neg hne]
      exact ih h1 (List.nodup_cons.mp (by simpa using hnd)).2

theorem buildStep_ok (cfg : IdConfig) (acc : IdContext) (e : String × TypeSpec)
    (hok : entryOK cfg e)
    (hTP : alookup acc.typeToPfx e.1 = none)
    (hTL : alookup acc.typeToLength e.1 = none)
    (hPT : alookup acc.pfxToType (rP cfg e.2) = none) :
    buildStep cfg acc e = .ok
      ⟨acc.typeToPfx ++ [(e.1, rP cfg e.2)],
       acc.typeToLength ++ [(e.1, rL cfg e.2)],
       acc.pfxToType ++ [(rP cfg e.2, e.1)],
       minInf acc.minLength (rL cfg e.2), qmax acc.maxLength (rL cfg e.2)⟩ := by
  obtain ⟨h1, h2, h3⟩ := hok
  unfold buildStep
  rw [if_neg (by exact fun hor => hor.elim h1 h2)]
  rw [if_neg (not_le.mpr h3)]
  rw [hPT]
  show (if truthyName none then _ else _) = _
  rw [if_neg (by simp [truthyName])]
  rw [aset_of_none _ _ _ hTP, aset_of_none _ _ _ hTL, aset_of_none _ _ _ hPT]

theorem buildAll_valid (cfg : IdConfig) (entries : List (String × TypeSpec)) :
    ∀ acc : IdContext,
    (∀ e ∈ entries, entryOK cfg e) →
    (∀ e ∈ entries, alookup acc.typeToPfx e.1 = none) →
    (∀ e ∈ entries, alookup acc.typeToLength e.1 = none) →
    (∀ e ∈ entries, alookup acc.pfxToType (rP cfg e.2) = none) →
    (entries.map Prod.fst).Nodup →
    (entries.map fun e => rP cfg e.2).Nodup →
    ∃ mn mx, buildAll cfg entries acc = .ok
      ⟨acc.typeToPfx ++ entries.map (fun e => (e.1, rP cfg e.2)),
       acc.typeToLength ++ entries.map (fun e => (e.1, rL cfg e.2)),
       acc.pfxToType ++ entries.map (fun e => (rP cfg e.2, e.1)),
       mn, mx⟩ := by
  induction entries with
  | nil =>
    intro acc _ _ _ _ _ _
    exact ⟨acc.minLength, acc.maxLength, by simp [buildAll]⟩
  | cons e rest ih =>
    intro acc hok hTP hTL hPT hN hP
    have hmem : e ∈ e :: rest := List.mem_cons_self e rest
    have hstep := buildStep_ok cfg acc e (hok e hmem) (hTP e hmem) (hTL e hmem) (hPT e hmem)
    have hN1 : e.1 ∉ rest.map Prod.fst := by
      have := hN
      rw [List.map_cons] at this
      exact (List.nodup_cons.mp this).1
    have hN2 : (rest.map Prod.fst).Nodup := by
      have := hN
      rw [List.map_cons] at this
      exact (List.nodup_cons.mp this).2
    have hP1 : rP cfg e.2 ∉ rest.map fun f => rP cfg f.2 := by
      have := hP
      rw [List.map_cons] at this
      exact (List.nodup_cons.mp this).1
    have hP2 : (rest.map fun f => rP cfg f.2).Nodup := by
      have := hP
      rw [List.map_cons] at this
      exact (List.nodup_cons.mp this).2
    have hname : ∀ f ∈ rest, f.1 ≠ e.1 := by
      intro f hf hfe
      exact hN1 (hfe ▸ List.mem_map_of_mem Prod.fst hf)
    have hpfx : ∀ f ∈ rest, rP cfg f.2 ≠ rP cfg e.2 := by
      intro f hf hfe
      exact hP1 (hfe ▸ List.mem_map_of_mem (fun g => rP cfg g.2) hf)
    obtain ⟨mn, mx, hres⟩ := ih
      ⟨acc.typeToPfx ++ [(e.1, rP cfg e.2)],
       acc.typeToLength ++ [(e.1, rL cfg e.2)],
       acc.pfxToType ++ [(rP cfg e.2, e.1)],
       minInf acc.minLength (rL cfg e.2), qmax acc.maxLength (rL cfg e.2)⟩
      (fun f hf => hok f (List.mem_cons_of_mem e hf))
      (fun f hf => by
        show alookup (acc.typeToPfx ++ [(e.1, rP cfg e.2)]) f.1 = none
        rw [alookup_append_of_none _ _ _ (hTP f (List.mem_cons_of_mem e hf)),
          alookup_cons, if_neg (fun hh => hname f hf hh.symm)]
        rfl)
      (fun f hf => by
        show alookup (acc.typeToLength ++ [(e.1, rL cfg e.2)]) f.1 = none
        rw [alookup_append_of_none _ _ _ (hTL f (List.mem_cons_of_mem e hf)),
          alookup_cons, if_neg (fun hh => hname f hf hh.symm)]
        rfl)
      (fun f hf => by
        show alookup (acc.pfxToType ++ [(rP cfg e.2, e.1)]) (rP cfg f.2) = none
        rw [alookup_append_of_none _ _ _ (hPT f (List.mem_cons_of_mem e hf)),
          alookup_cons, if_neg (fun hh => hpfx f hf hh.symm)]
        rfl)
      hN2 hP2
    refine ⟨mn, mx, ?_⟩
    show (match buildStep cfg acc e with
      | Except.error err => Except.error err
      | Except.ok next => buildAll cfg rest next) = _
    rw [hstep]
    dsimp only
    rw [hres]
    have hA : ∀ {α : Type} (l : List α) (a : α) (m : List α),
        (l ++ [a]) ++ m = l ++ a :: m := by
      intro α l a m
      rw [List.append_assoc]
      rfl
    simp only [List.map_cons, hA]

theorem createIdContext_tables (cfg : IdConfig) (defs : List (String × TypeSpec))
    (hv : ValidDefs cfg defs) :
    ∃ mn mx, createIdContext defs cfg = .ok
      ⟨defs.map (fun e => (e.1, rP cfg e.2)),
       defs.map (fun e => (e.1, rL cfg e.2)),
       defs.map (fun e => (rP cfg e.2, e.1)), mn, mx⟩ := by
  obtain ⟨hne, hok, hN, hP⟩ := hv
  obtain ⟨mn, mx, h⟩ := buildAll_valid cfg defs initAcc hok
    (fun _ _ => rfl) (fun _ _ => rfl) (fun _ _ => rfl) hN hP
  refine ⟨mn, mx, ?_⟩
  unfold createIdContext
  rw [if_neg hne]
  simpa using h

theorem ctx_typeToPfx (cfg : IdConfig) (defs : List (String × TypeSpec))
    (t : String) (sp : TypeSpec) (ctx : IdContext)
    (hv : ValidDefs cfg defs) (hmem : (t, sp) ∈ defs)
    (hctx : createIdContext defs cfg = .ok ctx) :
    alookup ctx.typeToPfx t = some (rP cfg sp) := by
  obtain ⟨mn, mx, h⟩ := createIdContext_tables cfg defs hv
  rw [hctx] at h
  have hc := Except.ok.inj h
  rw [hc]
  exact alookup_map_key Prod.fst (fun e => rP cfg e.2) defs (t, sp) hmem hv.2.2.1

theorem ctx_typeToLength (cfg : IdConfig) (defs : List (String × TypeSpec))
    (t : String) (sp : TypeSpec) (ctx : IdContext)
    (hv : ValidDefs cfg defs) (hmem : (t, sp) ∈ defs)
    (hctx : createIdContext defs cfg = .ok ctx) :
    alookup ctx.typeToLength t = some (rL cfg sp) := by
  obtain ⟨mn, mx, h⟩ := createIdContext_tables cfg defs hv
  rw [hctx] at h
  have hc := Except.ok.inj h
  rw [hc]
  exact alookup_map_key Prod.fst (fun e => rL cfg e.2) defs (t, sp) hmem hv.2.2.1

theorem ctx_pfxToType (cfg : IdConfig) (defs : List (String × TypeSpec))
    (t : String) (sp : TypeSpec) (ctx : IdContext)
    (hv : ValidDefs cfg defs) (hmem : (t, sp) ∈ defs)
    (hctx : createIdContext defs cfg = .ok ctx) :
    alookup ctx.pfxToType (rP cfg sp) = some t := by
  obtain ⟨mn, mx, h⟩ := createIdContext_tables cfg defs hv
  rw [hctx] at h
  have hc := Except.ok.inj h
  rw [hc]
  exact alookup_map_key (fun e => rP cfg e.2) Prod.fst defs (t, sp) hmem hv.2.2.2

theorem create_ok_shape (ctx : IdContext) (cfg : IdConfig) (t : String) (id : JStr)
    (h : create ctx cfg t = .ok id) :
    ∃ p len u, alookup ctx.typeToPfx t = some p ∧ p ≠ [] ∧
      alookup ctx.typeToLength t = some len ∧
      cfg.generateUniqueId len = some u ∧ (u.length : ℚ) = len ∧
      testAlnum u = true ∧ id = p ++ '_' :: u := by
  unfold create at h
  cases hp : alookup ctx.typeToPfx t with
  | none => rw [hp] at h; exact absurd h (by simp)
  | some p =>
    rw [hp] at h
    dsimp only at h
    by_cases hpe : p = []
    · rw [if_pos hpe] at h; exact absurd h (by simp)
    · rw [if_neg hpe] at h
      cases hl : alookup ctx.typeToLength t with
      | none => rw [hl] at h; exact absurd h (by simp)
      | some len =>
        rw [hl] at h
        dsimp only at h
        cases hg : cfg.generateUniqueId len with
        | none => rw [hg] at h; exact absurd h (by simp)
        | some u =>
          rw [hg] at h
          dsimp only at h
          by_cases hlen : (u.length : ℚ) ≠ len
          · rw [if_pos hlen] at h; exact absurd h (by simp)
          · rw [if_neg hlen] at h
            by_cases ha : !testAlnum u
            · rw [if_pos ha] at h; exact absurd h (by simp)
            · rw [if_neg ha] at h
              refine ⟨p, len, u, rfl, hpe, rfl, hg, not_not.mp hlen, ?_, ?_⟩
              · cases hta : testAlnum u
                · rw [hta] at ha; exact absurd rfl ha
                · rfl
              · exact (Except.ok.inj h).symm

theorem buildAll_cons (cfg : IdConfig) (e : String × TypeSpec)
    (rest : List (String × TypeSpec)) (acc : IdContext) :
    buildAll cfg (e :: rest) acc =
      match buildStep cfg acc e with
      | Except.error err => Except.error err
      | Except.ok next => buildAll cfg rest next := rfl

theorem buildAll_cons_ok (cfg : IdConfig) (e : String × TypeSpec)
    (rest : List (String × TypeSpec)) (acc next : IdContext)
    (h : buildStep cfg acc e = .ok next) :
    buildAll cfg (e :: rest) acc = buildAll cfg rest next := by
  rw [buildAll_cons, h]

theorem buildAll_cons_error (cfg : IdConfig) (e : String × TypeSpec)
    (rest : List (String × TypeSpec)) (acc : IdContext) (err : IdError)
    (h : buildStep cfg acc e = .error err) :
    buildAll cfg (e :: rest) acc = .error err := by
  rw [buildAll_cons, h]

/-- Configuration with default length 8 and a generator that always
returns eight letters a; used for the concrete instances below. -/
def cfgA : IdConfig := ⟨fun _ => some (cl "aaaaaaaa"), 8⟩

/-- Configuration whose generator returns a string one character short of
every request made with length 8. -/
def cfgShort : IdConfig := ⟨fun _ => some (cl "aaaaaaa"), 8⟩

/-- The single definition mapping the type user to the prefix u. -/
def defsA : List (String × TypeSpec) := [("user", TypeSpec.bare (cl "u"))]

/-- The context the construction builds from defsA under default length 8. -/
def ctxA : IdContext :=
  ⟨[("user", cl "u")], [("user", 8)], [(cl "u", "user")], some 8, 8⟩

/-- The registry of the findAll example: user with default length 8 and
post with explicit length 12. -/
def defsB : List (String × TypeSpec) :=
  [("user", TypeSpec.bare (cl "user")), ("post", TypeSpec.full (cl "post") 12)]

/-- The context the construction builds from defsB under default length 8. -/
def ctxB : IdContext :=
  ⟨[("user", cl "user"), ("post", cl "post")],
   [("user", 8), ("post", 12)],
   [(cl "user", "user"), (cl "post", "post")], some 8, 12⟩

/-- The rational 2.5, written in lowest terms so that the kernel can
evaluate comparisons on it directly. -/
def q52 : ℚ := ⟨5, 2, by norm_num, by norm_num⟩

theorem q52_eq : q52 = 5 / 2 := by
  rw [show q52 = Rat.mk' 5 2 (by norm_num) (by norm_num) from rfl]
  rw [Rat.mk'_eq_divInt, Rat.divInt_eq_div]
  norm_num

/-- C1: for every registry built from valid definitions and any injected
generator, whenever create of a defined type t returns an identifier,
getType applied to that identifier returns exactly t. -/
theorem getType_create_roundtrip (cfg : IdConfig) (defs : List (String × TypeSpec))
    (t : String) (sp : TypeSpec) (ctx : IdContext) (id : JStr)
    (hv : ValidDefs cfg defs) (hmem : (t, sp) ∈ defs)
    (hctx : createIdContext defs cfg = .ok ctx)
    (hcr : create ctx cfg t = .ok id) :
    getType ctx (some id) = some t := by
  obtain ⟨p, len, u, hp, hpe, hl, hg, hlen, ha, hid⟩ := create_ok_shape ctx cfg t id hcr
  have hp2 := ctx_typeToPfx cfg defs t sp ctx hv hmem hctx
  rw [hp] at hp2
  have hrp : p = rP cfg sp := Option.some.inj hp2
  obtain ⟨hne0, hnu0, hpos0⟩ := hv.2.1 (t, sp) hmem
  have hnu : '_' ∉ p := by rw [hrp]; exact hnu0
  have hidne : p ++ '_' :: u ≠ [] := by
    cases p with
    | nil => exact absurd rfl hpe
    | cons a as => simp
  rw [hid]
  unfold getType
  dsimp only
  rw [if_neg hidne, jsplit_append '_' p u hnu, List.headD_cons, hrp]
  exact ctx_pfxToType cfg defs t sp ctx hv hmem hctx

/-- C1 witness: on the registry mapping user to prefix u with an
eight-letter generator, create yields u_aaaaaaaa and getType returns user. -/
theorem getType_create_roundtrip_witness :
    getType ctxA (some (cl "u_aaaaaaaa")) = some "user" :=
  getType_create_roundtrip cfgA defsA "user" (TypeSpec.bare (cl "u")) ctxA
    (cl "u_aaaaaaaa") (by decide) (by decide) (by decide) (by decide)

/-- C2: for every registry built from valid definitions and any injected
generator, whenever create of a defined type returns an identifier,
isValid applied to that identifier returns true. -/
theorem isValid_create (cfg : IdConfig) (defs : List (String × TypeSpec))
    (t : String) (sp : TypeSpec) (ctx : IdContext) (id : JStr)
    (hv : ValidDefs cfg defs) (hmem : (t, sp) ∈ defs)
    (hctx : createIdContext defs cfg = .ok ctx)
    (hcr : create ctx cfg t = .ok id) :
    isValid ctx (some id) = true := by
  obtain ⟨p, len, u, hp, hpe, hl, hg, hlen, ha, hid⟩ := create_ok_shape ctx cfg t id hcr
  have hp2 := ctx_typeToPfx cfg defs t sp ctx hv hmem hctx
  rw [hp] at hp2
  have hrp : p = rP cfg sp := Option.some.inj hp2
  have hl2 := ctx_typeToLength cfg defs t sp ctx hv hmem hctx
  rw [hl] at hl2
  have hrl : len = rL cfg sp := Option.some.inj hl2
  obtain ⟨hne0, hnu0, hpos0⟩ := hv.2.1 (t, sp) hmem
  have hnu : '_' ∉ p := by rw [hrp]; exact hnu0
  have hnuu : '_' ∉ u := by
    intro hmu
    have ha2 := ha
    unfold testAlnum at ha2
    rw [Bool.and_eq_true, List.all_eq_true] at ha2
    exact absurd (ha2.2 '_' hmu) (by decide)
  have hmemu : '_' ∈ p ++ '_' :: u :=
    List.mem_append.mpr (Or.inr (List.mem_cons_self '_' u))
  rw [hid]
  unfold isValid
  dsimp only
  rw [if_pos hmemu, jsplit_append '_' p u hnu, jsplit_no_sep '_' u hnuu]
  simp only [List.headD_cons, List.drop_succ_cons, List.drop_zero]
  rw [hrp, ctx_pfxToType cfg defs t sp ctx hv hmem hctx]
  dsimp only
  rw [ctx_typeToLength cfg defs t sp ctx hv hmem hctx]
  dsimp only
  have hlenR : (u.length : ℚ) = rL cfg sp := hrl ▸ hlen
  rw [if_neg (not_not.mpr hlenR)]
  exact ha

/-- C2 witness: on the registry mapping user to prefix u, the created
identifier u_aaaaaaaa is valid. -/
theorem isValid_create_witness : isValid ctxA (some (cl "u_aaaaaaaa")) = true :=
  isValid_create cfgA defsA "user" (TypeSpec.bare (cl "u")) ctxA
    (cl "u_aaaaaaaa") (by decide) (by decide) (by decide) (by decide)

/-- C6: when the injected generator returns a string whose length differs
from the resolved length requested for a defined type, create fails with
GeneratorReturnedWrongLength carrying both the actual and the expected
length. -/
theorem create_wrong_length (cfg : IdConfig) (defs : List (String × TypeSpec))
    (t : String) (sp : TypeSpec) (ctx : IdContext) (u : JStr)
    (hv : ValidDefs cfg defs) (hmem : (t, sp) ∈ defs)
    (hctx : createIdContext defs cfg = .ok ctx)
    (hg : cfg.generateUniqueId (rL cfg sp) = some u)
    (hlen : (u.length : ℚ) ≠ rL cfg sp) :
    create ctx cfg t = .error (.generatorReturnedWrongLength u.length (rL cfg sp)) := by
  obtain ⟨hne0, hnu0, hpos0⟩ := hv.2.1 (t, sp) hmem
  unfold create
  rw [ctx_typeToPfx cfg defs t sp ctx hv hmem hctx]
  dsimp only
  rw [if_neg hne0, ctx_typeToLength cfg defs t sp ctx hv hmem hctx]
  dsimp only
  rw [hg]
  dsimp only
  rw [if_pos hlen]

/-- C6 witness: a generator one character short makes create fail with the
wrong-length error reporting 7 and 8. -/
theorem create_wrong_length_witness :
    create ctxA cfgShort "user" = .error (.generatorReturnedWrongLength 7 8) :=
  create_wrong_length cfgShort defsA "user" (TypeSpec.bare (cl "u")) ctxA
    (cl "aaaaaaa") (by decide) (by decide) (by decide) (by decide) (by decide)

/-- C7: construction from a definitions mapping with zero entries always
fails with EmptyDefinitions, before any per-type validation, whatever the
configuration. -/
theorem empty_defs_fail (cfg : IdConfig) (defs : List (String × TypeSpec))
    (h : defs.length = 0) :
    createIdContext defs cfg = .error .emptyDefinitions := by
  rw [List.length_eq_zero.mp h]
  unfold createIdContext
  rw [if_pos rfl]

/-- C7 witness: the empty mapping fails with EmptyDefinitions under the
concrete configuration. -/
theorem empty_defs_fail_witness :
    createIdContext [] cfgA = .error .emptyDefinitions :=
  empty_defs_fail cfgA [] (by decide)

/-- C9: getType applied to a bare registered prefix containing no
separator at all returns the type registered for that prefix. -/
theorem getType_bare_pfx (cfg : IdConfig) (defs : List (String × TypeSpec))
    (t : String) (sp : TypeSpec) (ctx : IdContext)
    (hv : ValidDefs cfg defs) (hmem : (t, sp) ∈ defs)
    (hctx : createIdContext defs cfg = .ok ctx) :
    getType ctx (some (rP cfg sp)) = some t := by
  obtain ⟨hne0, hnu0, hpos0⟩ := hv.2.1 (t, sp) hmem
  unfold getType
  dsimp only
  rw [if_neg hne0, jsplit_no_sep '_' (rP cfg sp) hnu0, List.headD_cons]
  exact ctx_pfxToType cfg defs t sp ctx hv hmem hctx

/-- C9 witness: on the registry mapping user to prefix u, getType of the
bare string u is user. -/
theorem getType_bare_pfx_witness : getType ctxA (some (cl "u")) = some "user" :=
  getType_bare_pfx cfgA defsA "user" (TypeSpec.bare (cl "u")) ctxA
    (by decide) (by decide) (by decide)

/-- C10: every identifier returned by findAll satisfies isValid, because
findAll post-filters the raw pattern matches through the strict validator. -/
theorem findAll_isValid (ctx : IdContext) (s : JStr) (m : JStr)
    (h : m ∈ findAll ctx s) : isValid ctx (some m) = true := by
  unfold findAll at h
  have h2 := (List.mem_filter.mp h).2
  simpa using h2

/-- C10 witness: the first match of the example text is valid. -/
theorem findAll_isValid_witness : isValid ctxB (some (cl "user_aaaaaaaa")) = true :=
  findAll_isValid ctxB
    (cl "by user_aaaaaaaa on post_bbbbbbbbbbbb and user_aaaaaaaa")
    (cl "user_aaaaaaaa") (by decide)

/-- C5: on the example registry, findAll returns exactly the three
identifiers of the text in left-to-right order, preserving the duplicate. -/
theorem findAll_example :
    createIdContext defsB cfgA = .ok ctxB ∧
    findAll ctxB (cl "by user_aaaaaaaa on post_bbbbbbbbbbbb and user_aaaaaaaa") =
      [cl "user_aaaaaaaa", cl "post_bbbbbbbbbbbb", cl "user_aaaaaaaa"] := by
  constructor
  · decide
  · decide

/-- C3 evaluation: on the registry mapping user to u with length 8, the
input u_aaaaaaaa_bbb carries a second separator after a well-formed
identifier, yet isValid returns true: the destructured split keeps only
the segment between the first two separators, so the trailing part is
never checked. -/
theorem isValid_second_separator :
    createIdContext defsA cfgA = .ok ctxA ∧
    isValid ctxA (some (cl "u_aaaaaaaa_bbb")) = true := by
  constructor
  · decide
  · decide

/-- C4 counterexample: a definition whose resolved length is the
non-integer rational 5 over 2 (that is, 2.5) is accepted: construction
succeeds instead of failing with InvalidLength, because the source checks
only that the length is a number greater than zero. -/
theorem nonint_length_accepted :
    isOkE (createIdContext [("user", TypeSpec.full (cl "u") q52)] cfgA) = true := by
  decide

theorem buildStep_ok_shape (cfg : IdConfig) (acc : IdContext) (e : String × TypeSpec)
    (next : IdContext) (h : buildStep cfg acc e = .ok next) :
    truthyName (alookup acc.pfxToType (rP cfg e.2)) = false ∧
    next = ⟨aset acc.typeToPfx e.1 (rP cfg e.2), aset acc.typeToLength e.1 (rL cfg e.2),
      aset acc.pfxToType (rP cfg e.2) e.1, minInf acc.minLength (rL cfg e.2),
      qmax acc.maxLength (rL cfg e.2)⟩ := by
  unfold buildStep at h
  by_cases h1 : rP cfg e.2 = [] ∨ '_' ∈ rP cfg e.2
  · rw [if_pos h1] at h; exact absurd h (by simp)
  · rw [if_neg h1] at h
    by_cases h2 : rL cfg e.2 ≤ 0
    · rw [if_pos h2] at h; exact absurd h (by simp)
    · rw [if_neg h2] at h
      by_cases h3 : truthyName (alookup acc.pfxToType (rP cfg e.2)) = true
      · rw [if_pos h3] at h; exact absurd h (by simp)
      · rw [if_neg h3] at h
        refine ⟨?_, (Except.ok.inj h).symm⟩
        cases hb : truthyName (alookup acc.pfxToType (rP cfg e.2))
        · rfl
        · exact absurd hb h3

theorem buildAll_invalidLength (cfg : IdConfig) (entries : List (String × TypeSpec)) :
    ∀ acc : IdContext,
    (∀ e ∈ entries, rP cfg e.2 ≠ [] ∧ '_' ∉ rP cfg e.2) →
    (∀ e ∈ entries, alookup acc.pfxToType (rP cfg e.2) = none) →
    (entries.map fun e => rP cfg e.2).Nodup →
    (∃ e ∈ entries, rL cfg e.2 ≤ 0) →
    ∃ t, buildAll cfg entries acc = .error (.invalidLength t) := by
  induction entries with
  | nil => intro acc _ _ _ hbad; simp at hbad
  | cons e rest ih =>
    intro acc hpfx hPT hP hbad
    obtain ⟨h1, h2⟩ := hpfx e (List.mem_cons_self e rest)
    by_cases hlen : rL cfg e.2 ≤ 0
    · refine ⟨e.1, ?_⟩
      refine buildAll_cons_error cfg e rest acc _ ?_
      unfold buildStep
      rw [if_neg (fun hor => hor.elim h1 h2), if_pos hlen]
    · have hstep : buildStep cfg acc e = .ok
          ⟨aset acc.typeToPfx e.1 (rP cfg e.2), aset acc.typeToLength e.1 (rL cfg e.2),
           aset acc.pfxToType (rP cfg e.2) e.1, minInf acc.minLength (rL cfg e.2),
           qmax acc.maxLength (rL cfg e.2)⟩ := by
        unfold buildStep
        rw [if_neg (fun hor => hor.elim h1 h2), if_neg hlen,
          hPT e (List.mem_cons_self e rest)]
        show (if truthyName none then _ else _) = _
        rw [if_neg (by simp [truthyName])]
      have hP1 : rP cfg e.2 ∉ rest.map fun f => rP cfg f.2 := by
        have := hP
        rw [List.map_cons] at this
        exact (List.nodup_cons.mp this).1
      have hP2 : (rest.map fun f => rP cfg f.2).Nodup := by
        have := hP
        rw [List.map_cons] at this
        exact (List.nodup_cons.mp this).2
      have hbadr : ∃ f ∈ rest, rL cfg f.2 ≤ 0 := by
        obtain ⟨f, hf, hfb⟩ := hbad
        rcases List.mem_cons.mp hf with heq | hfr
        · rw [heq] at hfb; exact absurd hfb hlen
        · exact ⟨f, hfr, hfb⟩
      rw [buildAll_cons_ok cfg e rest acc _ hstep]
      refine ih _ (fun f hf => hpfx f (List.mem_cons_of_mem e hf)) ?_ hP2 hbadr
      intro f hf
      show alookup (aset acc.pfxToType (rP cfg e.2) e.1) (rP cfg f.2) = none
      rw [alookup_aset_ne]
      · exact hPT f (List.mem_cons_of_mem e hf)
      · intro hh
        exact hP1 (hh ▸ List.mem_map_of_mem (fun g => rP cfg g.2) hf)

/-- C4 amended: construction fails with InvalidLength whenever some
resolved length is not positive, provided every prefix is valid and the
resolved prefixes are pairwise distinct so that no earlier check can fire
first; a positive non-integer length such as 2.5 passes the check. -/
theorem invalidLength_of_nonpositive (cfg : IdConfig) (defs : List (String × TypeSpec))
    (hpfx : ∀ e ∈ defs, rP cfg e.2 ≠ [] ∧ '_' ∉ rP cfg e.2)
    (hP : (defs.map fun e => rP cfg e.2).Nodup)
    (hbad : ∃ e ∈ defs, rL cfg e.2 ≤ 0) :
    ∃ t, createIdContext defs cfg = .error (.invalidLength t) := by
  have hne : defs ≠ [] := by
    intro hd
    rw [hd] at hbad
    simp at hbad
  unfold createIdContext
  rw [if_neg hne]
  exact buildAll_invalidLength cfg defs initAcc hpfx (fun _ _ => rfl) hP hbad

/-- C4 amended witness: a zero length fails with InvalidLength. -/
theorem invalidLength_of_nonpositive_witness :
    ∃ t, createIdContext [("user", TypeSpec.full (cl "u") 0)] cfgA =
      .error (.invalidLength t) :=
  invalidLength_of_nonpositive cfgA [("user", TypeSpec.full (cl "u") 0)]
    (by decide) (by decide) (by decide)

/-- C8 counterexample: two definitions resolving to the same prefix u, the
first under the empty type name: the truthiness-based duplicate check
misses the earlier claim (the stored empty name is falsy) and construction
succeeds instead of failing with DuplicatePrefix. -/
theorem duplicate_under_empty_name_accepted :
    isOkE (createIdContext
      [("", TypeSpec.bare (cl "u")), ("x", TypeSpec.bare (cl "u"))] cfgA) = true := by
  decide

theorem buildAll_ok_or_dup (cfg : IdConfig) (entries : List (String × TypeSpec)) :
    ∀ acc : IdContext,
    (∀ e ∈ entries, rP cfg e.2 ≠ [] ∧ '_' ∉ rP cfg e.2 ∧ 0 < rL cfg e.2) →
    (∃ acc2, buildAll cfg entries acc = .ok acc2) ∨
      ∃ p, buildAll cfg entries acc = .error (.duplicatePfx p) := by
  induction entries with
  | nil => intro acc _; exact Or.inl ⟨acc, rfl⟩
  | cons e rest ih =>
    intro acc hok
    obtain ⟨h1, h2, h3⟩ := hok e (List.mem_cons_self e rest)
    by_cases hdup : truthyName (alookup acc.pfxToType (rP cfg e.2)) = true
    · refine Or.inr ⟨rP cfg e.2, ?_⟩
      refine buildAll_cons_error cfg e rest acc _ ?_
      unfold buildStep
      rw [if_neg (fun hor => hor.elim h1 h2), if_neg (not_le.mpr h3), if_pos hdup]
    · have hstep : buildStep cfg acc e = .ok
          ⟨aset acc.typeToPfx e.1 (rP cfg e.2), aset acc.typeToLength e.1 (rL cfg e.2),
           aset acc.pfxToType (rP cfg e.2) e.1, minInf acc.minLength (rL cfg e.2),
           qmax acc.maxLength (rL cfg e.2)⟩ := by
        unfold buildStep
        rw [if_neg (fun hor => hor.elim h1 h2), if_neg (not_le.mpr h3), if_neg hdup]
      rw [buildAll_cons_ok cfg e rest acc _ hstep]
      exact ih _ (fun f hf => hok f (List.mem_cons_of_mem e hf))

theorem buildAll_ok_avoids (cfg : IdConfig) (entries : List (String × TypeSpec)) :
    ∀ (acc acc2 : IdContext) (k : JStr),
    (∀ e ∈ entries, e.1 ≠ "") →
    truthyName (alookup acc.pfxToType k) = true →
    buildAll cfg entries acc = .ok acc2 →
    ∀ f ∈ entries, rP cfg f.2 ≠ k := by
  induction entries with
  | nil => intro acc acc2 k _ _ _ f hf; simp at hf
  | cons e rest ih =>
    intro acc acc2 k hnames htr hok f hf
    cases hstep : buildStep cfg acc e with
    | error err =>
      rw [buildAll_cons_error cfg e rest acc err hstep] at hok
      exact absurd hok (by simp)
    | ok next =>
      rw [buildAll_cons_ok cfg e rest acc next hstep] at hok
      obtain ⟨hdupf, hnexteq⟩ := buildStep_ok_shape cfg acc e next hstep
      have hrpk : rP cfg e.2 ≠ k := by
        intro hh
        rw [hh, htr] at hdupf
        exact absurd hdupf (by simp)
      rcases List.mem_cons.mp hf with heq | hfr
      · rw [heq]; exact hrpk
      · have htr2 : truthyName (alookup next.pfxToType k) = true := by
          rw [hnexteq]
          show truthyName (alookup (aset acc.pfxToType (rP cfg e.2) e.1) k) = true
          rw [alookup_aset_ne _ _ _ _ (fun hh => hrpk hh.symm)]
          exact htr
        exact ih next acc2 k (fun g hg => hnames g (List.mem_cons_of_mem e hg))
          htr2 hok f hfr

theorem buildAll_ok_nodup (cfg : IdConfig) (entries : List (String × TypeSpec)) :
    ∀ (acc acc2 : IdContext),
    (∀ e ∈ entries, e.1 ≠ "") →
    buildAll cfg entries acc = .ok acc2 →
    (entries.map fun e => rP cfg e.2).Nodup := by
  induction entries with
  | nil => intro _ _ _ _; simp
  | cons e rest ih =>
    intro acc acc2 hnames hok
    cases hstep : buildStep cfg acc e with
    | error err =>
      rw [buildAll_cons_error cfg e rest acc err hstep] at hok
      exact absurd hok (by simp)
    | ok next =>
      rw [buildAll_cons_ok cfg e rest acc next hstep] at hok
      obtain ⟨hdupf, hnexteq⟩ := buildStep_ok_shape cfg acc e next hstep
      rw [List.map_cons, List.nodup_cons]
      constructor
      · have htr : truthyName (alookup next.pfxToType (rP cfg e.2)) = true := by
          rw [hnexteq]
          show truthyName (alookup (aset acc.pfxToType (rP cfg e.2) e.1) (rP cfg e.2)) = true
          rw [alookup_aset_self]
          show (e.1 != "") = true
          rw [bne_iff_ne]
          exact hnames e (List.mem_cons_self e rest)
        intro hmem
        obtain ⟨f, hf, hfe⟩ := List.mem_map.mp hmem
        exact buildAll_ok_avoids cfg rest next acc2 (rP cfg e.2)
          (fun g hg => hnames g (List.mem_cons_of_mem e hg)) htr hok f hf hfe
      · exact ih next acc2 (fun g hg => hnames g (List.mem_cons_of_mem e hg)) hok

/-- C8 amended: construction fails with DuplicatePrefix whenever two
definitions resolve to the same prefix, regardless of their lengths,
provided every entry passes prefix and length validation and no type name
is the empty string (a prefix claimed by the empty-string type name is
stored as a falsy value and the truthiness-based duplicate check misses
it); the duplicate is detected against prefixes claimed by earlier
entries of the same pass. -/
theorem duplicatePfx_of_shared (cfg : IdConfig) (defs : List (String × TypeSpec))
    (hok : ∀ e ∈ defs, rP cfg e.2 ≠ [] ∧ '_' ∉ rP cfg e.2 ∧ 0 < rL cfg e.2)
    (hnames : ∀ e ∈ defs, e.1 ≠ "")
    (hdup : ¬ (defs.map fun e => rP cfg e.2).Nodup) :
    ∃ p, createIdContext defs cfg = .error (.duplicatePfx p) := by
  have hne : defs ≠ [] := by
    intro hd
    rw [hd] at hdup
    simp at hdup
  unfold createIdContext
  rw [if_neg hne]
  rcases buildAll_ok_or_dup cfg defs initAcc hok with ⟨acc2, hh⟩ | h
  · exact absurd (buildAll_ok_nodup cfg defs initAcc acc2 hnames hh) hdup
  · exact h

/-- C8 amended witness: user and admin sharing the prefix u fail with
DuplicatePrefix. -/
theorem duplicatePfx_of_shared_witness :
    ∃ p, createIdContext
      [("user", TypeSpec.bare (cl "u")), ("admin", TypeSpec.bare (cl "u"))] cfgA =
      .error (.duplicatePfx p) :=
  duplicatePfx_of_shared cfgA
    [("user", TypeSpec.bare (cl "u")), ("admin", TypeSpec.bare (cl "u"))]
    (by decide) (by decide) (by decide)
